import Mathlib

/-!
Verification of the wordplay-solver repository against its specification.

The repository contains two variants of the solver:
* the package variant (`src/wordplay_solver/scoring.py`, `dictionary.py`,
  `solver.py`), modelled in namespace `Pkg`;
* the standalone variant (`wordplay_solver.py`), modelled in namespace
  `Standalone`.

Strings are modelled as `List Char` with ASCII semantics: Python's
`str.isalpha`, `str.isdigit`, `str.lower` are modelled by `Char.isAlpha`,
`Char.isDigit`, `Char.toLower`, which agree with Python on ASCII input.
Python `dict`s are modelled as association lists with insertion-order
semantics: updating an existing key keeps its position, inserting a new key
appends; this matches CPython dict behaviour exactly.
-/

/-- Model of a Python `dict` keyed by characters (insertion-ordered
association list with unique keys maintained by `set`). -/
abbrev PyDict := List (Char × Nat)

/-- `d.get(k, dflt)`. -/
def PyDict.get (d : PyDict) (k : Char) (dflt : Nat) : Nat :=
  match d.find? (fun p => p.1 == k) with
  | some p => p.2
  | none => dflt

/-- `k in d`. -/
def PyDict.hasKey (d : PyDict) (k : Char) : Bool :=
  d.any (fun p => p.1 == k)

/-- `d[k] = v`: update in place if the key exists, else append. -/
def PyDict.set (d : PyDict) (k : Char) (v : Nat) : PyDict :=
  if d.hasKey k then d.map (fun p => if p.1 == k then (k, v) else p)
  else d ++ [(k, v)]

/-- `{**a, **b}`: entries of `a`, then entries of `b` override/extend. -/
def PyDict.merge (a b : PyDict) : PyDict :=
  b.foldl (fun acc p => acc.set p.1 p.2) a

/-- `list(d.keys())` (insertion order). -/
def PyDict.keys (d : PyDict) : List Char :=
  d.map (·.1)

/-- `s.lower()` applied characterwise. -/
def pyLower (s : List Char) : List Char :=
  s.map Char.toLower

/-- `int(num_str)` for a run of decimal digit characters. -/
def digitsToNat (ds : List Char) : Nat :=
  ds.foldl (fun n d => n * 10 + (d.toNat - '0'.toNat)) 0

/-- Characters Python's `str.strip` removes (`str.isspace`, ASCII range). -/
def pyIsSpace (c : Char) : Bool :=
  c == ' ' || c == '\t' || c == '\n' || c == '\r' || c == '\x0b' || c == '\x0c'

/-- `s.strip()`. -/
def pyStrip (s : List Char) : List Char :=
  ((s.dropWhile pyIsSpace).reverse.dropWhile pyIsSpace).reverse

/-- `STANDARD_LETTER_VALUES`, identical in `scoring.py` and
`wordplay_solver.py`. -/
def STANDARD_LETTER_VALUES : PyDict :=
  [('a', 1), ('b', 3), ('c', 3), ('d', 2), ('e', 1), ('f', 4), ('g', 2),
   ('h', 4), ('i', 1), ('j', 8), ('k', 5), ('l', 1), ('m', 3), ('n', 1),
   ('o', 1), ('p', 3), ('q', 10), ('r', 1), ('s', 1), ('t', 1), ('u', 1),
   ('v', 4), ('w', 4), ('x', 8), ('y', 4), ('z', 10)]

/-- Finalize one `letter (+ digit run)` entry of `parse_letter_input`:
`value = int(num_str) if num_str else STANDARD_LETTER_VALUES.get(char, 1)`,
then `letters[char] = value`. -/
def finishEntry (ch : Char) (ds : List Char) (acc : PyDict) : PyDict :=
  acc.set ch (if ds.isEmpty then STANDARD_LETTER_VALUES.get ch 1 else digitsToNat ds)

/-- The scanning loop of `parse_letter_input` (identical in `scoring.py`
lines 76-110 and `wordplay_solver.py` lines 103-126), written as a state
machine: the optional state holds the current letter together with the
digit run collected for it so far.  On a letter the previous entry (if any)
is finalized and a new one starts; on a digit the run grows; any other
character finalizes the pending entry and is skipped. -/
def parseGo : List Char → Option (Char × List Char) → PyDict → PyDict
  | [], none, acc => acc
  | [], some (ch, ds), acc => finishEntry ch ds acc
  | c :: rest, none, acc =>
      if c.isAlpha then parseGo rest (some (c.toLower, [])) acc
      else parseGo rest none acc
  | c :: rest, some (ch, ds), acc =>
      if c.isDigit then parseGo rest (some (ch, ds ++ [c])) acc
      else if c.isAlpha then parseGo rest (some (c.toLower, [])) (finishEntry ch ds acc)
      else parseGo rest none (finishEntry ch ds acc)

/-- `parse_letter_input(letter_str)`. -/
def parse_letter_input (s : List Char) : PyDict :=
  parseGo s none []

/-- The multiset-subset test shared by both `get_words_with_letters`
implementations: `all(word_count[char] <= letter_count.get(char, 0) for
char in word_count)`, where `word_count = Counter(word)` and
`letter_count = Counter(avail)`.  Quantifying over every character of the
word is equivalent to quantifying over its distinct characters. -/
def canForm (word avail : List Char) : Bool :=
  word.all (fun c => word.count c ≤ avail.count c)

namespace Pkg

/-- `calculate_length_bonus` (`scoring.py` lines 40-74): lookup in the
`length_bonuses` dict, with `length_bonuses[20]` as the default for any
length not in the table (i.e. any length greater than 20). -/
def calculate_length_bonus (word_length : Nat) : Nat :=
  match word_length with
  | 0 => 0 | 1 => 0 | 2 => 0 | 3 => 0 | 4 => 0
  | 5 => 5 | 6 => 10 | 7 => 15
  | 8 => 25 | 9 => 35
  | 10 => 50 | 11 => 65
  | 12 => 85 | 13 => 105 | 14 => 125
  | 15 => 150 | 16 => 175 | 17 => 200
  | 18 => 230 | 19 => 270 | 20 => 320
  | _ => 320

/-- The base-score sum shared by both scoring implementations:
`sum(letter_values.get(letter.lower(), 0) for letter in word if
letter.isalpha())`. -/
def baseScore (word : List Char) (letter_values : PyDict) : Nat :=
  ((word.filter Char.isAlpha).map (fun c => letter_values.get c.toLower 0)).sum

/-- `calculate_word_score` (`scoring.py` lines 112-132): base score plus
length bonus.  (The Python `letter_values=None` default substitutes
`STANDARD_LETTER_VALUES`; callers in the claims always pass a table.) -/
def calculate_word_score (word : List Char) (letter_values : PyDict) : Nat :=
  baseScore word letter_values + calculate_length_bonus word.length

/-- `Dictionary.get_words_with_letters` (`dictionary.py` lines 100-120):
single pass over the word set, multiset-subset test against
`Counter(letters.lower())`, no minimum-length filter.  The Python set is
modelled as a list; membership is what the claims are about. -/
def get_words_with_letters (words : List (List Char)) (letters : List Char) :
    List (List Char) :=
  words.filter (fun w => canForm w (pyLower letters))

/-- The value-table combination step of `solver.py` (lines 31-38, identical
in both solver methods): `{**inline_values, **custom_values}` when
`custom_values` is truthy (a non-empty dict), else `inline_values` alone. -/
def mergeValues (inline : PyDict) (custom : Option PyDict) : PyDict :=
  match custom with
  | some cv => if cv.isEmpty then inline else PyDict.merge inline cv
  | none => inline

/-- The letter-value table computed by `find_best_word` /
`find_all_words_with_scores` from the raw query string. -/
def letter_values_of (letters : List Char) (custom : Option PyDict) : PyDict :=
  mergeValues (parse_letter_input letters) custom

end Pkg

namespace Standalone

/-- `WordSolver.calculate_word_score` (`wordplay_solver.py` lines 99-101):
the base-score sum only — this variant adds no length bonus. -/
def calculate_word_score (word : List Char) (letter_values : PyDict) : Nat :=
  Pkg.baseScore word letter_values

/-- `Dictionary.get_words_with_letters` (`wordplay_solver.py` lines 76-90):
like the package variant but words of length < 4 are skipped
(`if len(word) < 4: continue`). -/
def get_words_with_letters (words : List (List Char)) (letters : List Char) :
    List (List Char) :=
  words.filter (fun w => decide (4 ≤ w.length) && canForm w (pyLower letters))

end Standalone

/-- Index of the first occurrence of `sep` as a contiguous subsequence of
`s` (leftmost match), `none` if there is none.  This is the search both
Python's `in` operator and `str.split` perform. -/
def findGo (sep : List Char) : List Char → Option Nat
  | [] => if sep.isEmpty then some 0 else none
  | c :: rest =>
      if sep.isPrefixOf (c :: rest) then some 0
      else (findGo sep rest).map (· + 1)

/-- Python's `sep in s`. -/
def hasSub (sep s : List Char) : Bool :=
  (findGo sep s).isSome

/-- One step of Python's `s.split(sep)`: the text before the first
occurrence of `sep`, and the remainder after that occurrence (the whole
string and `[]` when there is no occurrence; `find_best_words` only reads
the split under a `sep in s` guard, so that branch is never observed). -/
def splitHead (sep s : List Char) : List Char × List Char :=
  match findGo sep s with
  | some i => (s.take i, s.drop (i + sep.length))
  | none => (s, [])

/-- The delimiter `'s='` of `find_best_words`. -/
def sepSeq : List Char := ['s', '=']

namespace Standalone

/-- The input-splitting step of `find_best_words` (`wordplay_solver.py`
lines 145-148): if `'s=' in letters`, `parts = letters.split('s=')`;
`letters = parts[0].strip()`; `constraint_str = parts[1].strip()`.
`parts[0]` is the text before the first occurrence and `parts[1]` the text
between the first occurrence and the next one in the remainder (or the
whole remainder when the delimiter occurs once).  Text beyond `parts[1]`
is never read. -/
def split_query (s : List Char) : List Char × List Char :=
  if hasSub sepSeq s then
    let h1 := splitHead sepSeq s
    let h2 := splitHead sepSeq h1.2
    (pyStrip h1.1, pyStrip h2.1)
  else (s, [])

/-- A Python dict keyed by 1-based positions, as built by the constraint
parser (`position_constraints`). -/
abbrev PosDict := List (Nat × Char)

/-- `d[k] = v` for the position dict. -/
def PosDict.set (d : PosDict) (k : Nat) (v : Char) : PosDict :=
  if d.any (fun p => p.1 == k) then d.map (fun p => if p.1 == k then (k, v) else p)
  else d ++ [(k, v)]

/-- Finalize one `letter (+ digit run)` pair of the constraint parser
(`wordplay_solver.py` lines 161-164): the pair is recorded only when the
digit run is non-empty (`if pos_str:`) and the position is positive
(`if position > 0:`). -/
def finishConstraint (ch : Char) (ds : List Char) (acc : PosDict) : PosDict :=
  if ds.isEmpty then acc
  else if 0 < digitsToNat ds then PosDict.set acc (digitsToNat ds) ch
  else acc

/-- The constraint-parsing loop of `find_best_words` (`wordplay_solver.py`
lines 150-166), as a state machine in the style of `parseGo`. -/
def parseConstraintsGo : List Char → Option (Char × List Char) → PosDict → PosDict
  | [], none, acc => acc
  | [], some (ch, ds), acc => finishConstraint ch ds acc
  | c :: rest, none, acc =>
      if c.isAlpha then parseConstraintsGo rest (some (c.toLower, [])) acc
      else parseConstraintsGo rest none acc
  | c :: rest, some (ch, ds), acc =>
      if c.isDigit then parseConstraintsGo rest (some (ch, ds ++ [c])) acc
      else if c.isAlpha then
        parseConstraintsGo rest (some (c.toLower, [])) (finishConstraint ch ds acc)
      else parseConstraintsGo rest none (finishConstraint ch ds acc)

/-- The parsed `position_constraints` of `find_best_words`. -/
def parse_constraints (s : List Char) : PosDict :=
  parseConstraintsGo s none []

/-- The per-word constraint check of `find_best_words` (`wordplay_solver.py`
lines 191-198): a word stays valid iff for every `(pos, char)` pair,
`pos <= len(word)` and `word[pos-1] == char`.  The parser only produces
positions `>= 1` (proved below), for which the `Nat` index `pos - 1`
coincides with Python's indexing. -/
def satisfies_constraints (pc : PosDict) (w : List Char) : Bool :=
  pc.all (fun p => decide (p.1 ≤ w.length) && (w.getD (p.1 - 1) ' ' == p.2))

/-- The constraint-filtering step of `find_best_words` (`wordplay_solver.py`
lines 188-199), applied only when the constraint dict is truthy. -/
def apply_constraints (pc : PosDict) (ws : List (List Char)) : List (List Char) :=
  if pc.isEmpty then ws else ws.filter (satisfies_constraints pc)

/-- `input_letters` of `find_best_words` (line 169): the alphabetic
characters of the (split) letters portion, lowercased, with repetition. -/
def input_letters_of (letters : List Char) : List Char :=
  pyLower (letters.filter Char.isAlpha)

/-- The standard-value fill of `find_best_words` (lines 180-183): every
letter of `input_letters` missing from the table gets its standard value. -/
def fillStandard (lv : PyDict) (input_letters : List Char) : PyDict :=
  input_letters.foldl
    (fun acc c => if acc.hasKey c then acc else acc.set c (STANDARD_LETTER_VALUES.get c 1))
    lv

/-- The merged letter-value table of `find_best_words` (lines 171-183):
inline values from the letters portion, then config `custom_values`
(which overwrite on key collision), then the standard fill. -/
def letter_values_of (letters0 : List Char) (custom : Option PyDict) : PyDict :=
  let letters := (split_query letters0).1
  fillStandard (Pkg.mergeValues (parse_letter_input letters) custom)
    (input_letters_of letters)

end Standalone

/-- A `(word, score, length)` triple (`ScoredWord`). -/
abbrev Scored := List Char × Nat × Nat

/-- Lexicographic comparison of words by code point, Python's `<=` on
strings. -/
def lexLe : List Char → List Char → Bool
  | [], _ => true
  | _ :: _, [] => false
  | a :: as, b :: bs =>
      if a.toNat < b.toNat then true
      else if b.toNat < a.toNat then false
      else lexLe as bs

/-- The sort order of `find_best_words` (`wordplay_solver.py` line 211),
`key=lambda x: (-x[1], -x[2], x[0])`: score descending, then length
descending, then word ascending. -/
def rankLe (a b : Scored) : Prop :=
  b.2.1 < a.2.1 ∨ (a.2.1 = b.2.1 ∧ (b.2.2 < a.2.2 ∨ (a.2.2 = b.2.2 ∧ lexLe a.1 b.1 = true)))

instance : DecidableRel rankLe := fun _ _ => by unfold rankLe; infer_instance

/-- The sort order of `find_all_words_with_scores` (`solver.py` line 91),
`key=lambda x: (-x[1], -x[2])`: score descending, then length descending,
with no tie-break on the word. -/
def pkgLe (a b : Scored) : Prop :=
  b.2.1 < a.2.1 ∨ (a.2.1 = b.2.1 ∧ b.2.2 ≤ a.2.2)

instance : DecidableRel pkgLe := fun _ _ => by unfold pkgLe; infer_instance

/-- Python's `list.sort` is a stable sort; a stable sort with respect to a
total, transitive relation has a unique possible output, so insertion sort
(stable) models it exactly. -/
def pySort (r : Scored → Scored → Prop) [DecidableRel r] (l : List Scored) :
    List Scored :=
  List.insertionSort r l

namespace Standalone

/-- Sorting step of `find_best_words` (line 211). -/
def sortScored (l : List Scored) : List Scored := pySort rankLe l

end Standalone

namespace Pkg

/-- Sorting step of `find_all_words_with_scores` (`solver.py` line 91). -/
def sortScored (l : List Scored) : List Scored := pySort pkgLe l

/-- `WordSolver.find_all_words_with_scores` (`solver.py` lines 58-93).
The availability string passed to the matcher is
`''.join(letter_values.keys())` — the distinct parsed letters, not the
letters of the query with repetition. -/
def find_all_words_with_scores (lexicon : List (List Char)) (letters : List Char)
    (custom : Option PyDict) : List Scored :=
  let letter_values := letter_values_of letters custom
  let valid_words := get_words_with_letters lexicon letter_values.keys
  if valid_words.isEmpty then []
  else
    sortScored (valid_words.map (fun w => (w, calculate_word_score w letter_values, w.length)))

/-- The selection loop of `WordSolver.find_best_word` (`solver.py` lines
47-54): running best updated when the score is strictly larger, or equal
with a strictly longer word; `best_score` starts at `-1`. -/
def bestStep (lv : PyDict) (best : List Char × Int) (w : List Char) : List Char × Int :=
  let score : Int := calculate_word_score w lv
  if score > best.2 ∨ (score = best.2 ∧ best.1.length < w.length) then (w, score) else best

/-- `WordSolver.find_best_word` (`solver.py` lines 20-56). -/
def find_best_word (lexicon : List (List Char)) (letters : List Char)
    (custom : Option PyDict) : List Char × Int :=
  let letter_values := letter_values_of letters custom
  let valid_words := get_words_with_letters lexicon letter_values.keys
  if valid_words.isEmpty then ([], 0)
  else valid_words.foldl (bestStep letter_values) ([], -1)

end Pkg

namespace Standalone

/-- The result dict of `find_best_words`: `'top_words'` and `'by_length'`
(the latter a dict from length to word/score lists, modelled as an
association list in insertion order, i.e. increasing length). -/
structure BestWordsResult where
  top_words : List (List Char × Nat)
  by_length : List (Nat × List (List Char × Nat))
deriving DecidableEq

/-- The candidate set of `find_best_words` after matching (line 186) and
constraint filtering (lines 188-199). -/
def valid_words_of (lexicon : List (List Char)) (letters0 : List Char) :
    List (List Char) :=
  let letters := (split_query letters0).1
  apply_constraints (parse_constraints (split_query letters0).2)
    (get_words_with_letters lexicon (input_letters_of letters))

/-- `WordSolver.find_best_words` (`wordplay_solver.py` lines 128-229). -/
def find_best_words (lexicon : List (List Char)) (letters0 : List Char)
    (custom : Option PyDict) : BestWordsResult :=
  let letter_values := letter_values_of letters0 custom
  let valid_words := valid_words_of lexicon letters0
  if valid_words.isEmpty then ⟨[], []⟩
  else
    let word_scores :=
      valid_words.map (fun w => (w, calculate_word_score w letter_values, w.length))
    let sorted := sortScored word_scores
    let top_words := (sorted.take 5).map (fun t => (t.1, t.2.1))
    let max_length := (sorted.map (fun t => t.2.2)).foldl max 0
    let by_length := ((List.range (max_length + 1)).drop 4).filterMap (fun len =>
      let lws := (sorted.filter (fun t => t.2.2 == len)).map (fun t => (t.1, t.2.1))
      if lws.isEmpty then none else some (len, lws.take 5))
    ⟨top_words, by_length⟩

end Standalone

/-- The length-bonus table exactly as the specification words it (for the
refinement comparison with `Pkg.calculate_length_bonus`): 0 for lengths
at most 4; 5, 10, 15 for lengths 5-7; 25, 35 for 8-9; 50, 65 for 10-11;
85, 105, 125 for 12-14; 150, 175, 200 for 15-17; 230 for 18; 270 for 19;
320 for 20; and 320 for every length beyond 20. -/
def specLengthBonus (n : Nat) : Nat :=
  match n with
  | 0 => 0 | 1 => 0 | 2 => 0 | 3 => 0 | 4 => 0
  | 5 => 5 | 6 => 10 | 7 => 15
  | 8 => 25 | 9 => 35
  | 10 => 50 | 11 => 65
  | 12 => 85 | 13 => 105 | 14 => 125
  | 15 => 150 | 16 => 175 | 17 => 200
  | 18 => 230 | 19 => 270 | 20 => 320
  | _ + 21 => 320

/-- The base score exactly as the specification words it: the sum over the
alphabetic characters `c` of the word of `V[lowercase c]`, with 0
contributed for letters absent from `V`. -/
def specBaseScore (w : List Char) (V : PyDict) : Nat :=
  ((w.filter Char.isAlpha).map (fun c => V.get c.toLower 0)).sum

theorem length_bonus_eq_spec (n : Nat) : Pkg.calculate_length_bonus n = specLengthBonus n := by
  match n with
  | 0 | 1 | 2 | 3 | 4 | 5 | 6 | 7 | 8 | 9 | 10
  | 11 | 12 | 13 | 14 | 15 | 16 | 17 | 18 | 19 | 20 => rfl
  | _ + 21 => rfl

section ScratchChecks

example : parse_letter_input "a1b3".toList = [('a', 1), ('b', 3)] := by decide

example : parse_letter_input "letters".toList =
    [('l', 1), ('e', 1), ('t', 1), ('r', 1), ('s', 1)] := by decide

example : parse_letter_input "a5 a12".toList = [('a', 12)] := by decide

example : Standalone.split_query "ab s=c1 s=zz".toList =
    ("ab".toList, "c1".toList) := by decide

example : Standalone.parse_constraints "t1i2c3".toList =
    [(1, 't'), (2, 'i'), (3, 'c')] := by decide

example : Standalone.parse_constraints "a0b2 c".toList = [(2, 'b')] := by decide

example : Pkg.find_all_words_with_scores ["tees".toList] "letters".toList none
    = [] := by decide

example : Standalone.find_best_words ["test".toList] "test".toList none =
    ⟨[("test".toList, 4)], [(4, [("test".toList, 4)])]⟩ := by decide

example : Pkg.find_best_word ["test".toList] "test".toList none =
    ([], 0) := by decide

example : Pkg.find_best_word ["tes".toList] "test".toList none =
    ("tes".toList, 3) := by decide

end ScratchChecks

/-- C1 counterexample: the claim asserts that both scoring implementations
return base score plus length bonus, but the standalone
`WordSolver.calculate_word_score` on the word "aaaaa" with table
`{a: 1}` returns 5, not the claimed 5 + 5. -/
theorem C1_counterexample :
    ¬ (Standalone.calculate_word_score "aaaaa".toList [('a', 1)] =
       specBaseScore "aaaaa".toList [('a', 1)] +
         specLengthBonus "aaaaa".toList.length) := by decide

/-- C1 amended: for every word and letter-value table, the package
`calculate_word_score` returns the base score (sum of `V[lowercase c]`
over alphabetic characters, 0 for letters absent from `V`) plus the length
bonus from the fixed table; the standalone `WordSolver.calculate_word_score`
returns the base score only, with no length bonus. -/
theorem C1_amended (w : List Char) (V : PyDict) :
    Pkg.calculate_word_score w V = specBaseScore w V + specLengthBonus w.length ∧
    Standalone.calculate_word_score w V = specBaseScore w V := by
  refine ⟨?_, rfl⟩
  unfold Pkg.calculate_word_score
  rw [length_bonus_eq_spec]
  rfl

theorem bonus_le_succ (n : Nat) :
    Pkg.calculate_length_bonus n ≤ Pkg.calculate_length_bonus (n + 1) := by
  match n with
  | 0 | 1 | 2 | 3 | 4 | 5 | 6 | 7 | 8 | 9 | 10
  | 11 | 12 | 13 | 14 | 15 | 16 | 17 | 18 | 19 | 20 => decide
  | _ + 21 => exact Nat.le_refl _

theorem bonus_monotone : Monotone Pkg.calculate_length_bonus :=
  monotone_nat_of_le_succ bonus_le_succ

/-- C8: scoring is monotonic in the length bonus: for any table and any
two words of equal base score with `len w1 <= len w2`, the package total
score of `w2` is at least that of `w1`; and the length-bonus table itself
is monotonically non-decreasing, including beyond length 20. -/
theorem C8_score_monotone (lv : PyDict) (w1 w2 : List Char)
    (hbase : Pkg.baseScore w1 lv = Pkg.baseScore w2 lv)
    (hlen : w1.length ≤ w2.length) :
    Pkg.calculate_word_score w1 lv ≤ Pkg.calculate_word_score w2 lv ∧
    ∀ m n : Nat, m ≤ n →
      Pkg.calculate_length_bonus m ≤ Pkg.calculate_length_bonus n := by
  refine ⟨?_, fun m n h => bonus_monotone h⟩
  unfold Pkg.calculate_word_score
  rw [hbase]
  exact Nat.add_le_add_left (bonus_monotone hlen) _

/-- Witness for C8 at `w1 = "be"`, `w2 = "tale"` (both base 4) with
standard values. -/
theorem C8_score_monotone_witness :
    Pkg.calculate_word_score "be".toList STANDARD_LETTER_VALUES ≤
      Pkg.calculate_word_score "tale".toList STANDARD_LETTER_VALUES ∧
    ∀ m n : Nat, m ≤ n →
      Pkg.calculate_length_bonus m ≤ Pkg.calculate_length_bonus n :=
  C8_score_monotone STANDARD_LETTER_VALUES "be".toList "tale".toList
    (by decide) (by decide)

theorem canForm_iff (w avail : List Char) :
    canForm w avail = true ↔ ∀ c ∈ w, w.count c ≤ avail.count c := by
  simp [canForm, List.all_eq_true]

theorem mem_get_words_standalone (words : List (List Char)) (s w : List Char) :
    w ∈ Standalone.get_words_with_letters words s ↔
      w ∈ words ∧ 4 ≤ w.length ∧ ∀ c ∈ w, w.count c ≤ (pyLower s).count c := by
  rw [Standalone.get_words_with_letters, List.mem_filter]
  simp only [Bool.and_eq_true, decide_eq_true_eq, canForm_iff, and_assoc]

theorem mem_get_words_pkg (words : List (List Char)) (s w : List Char) :
    w ∈ Pkg.get_words_with_letters words s ↔
      w ∈ words ∧ ∀ c ∈ w, w.count c ≤ (pyLower s).count c := by
  rw [Pkg.get_words_with_letters, List.mem_filter]
  simp only [canForm_iff]

theorem PyDict.get_cons (p : Char × Nat) (d : PyDict) (k : Char) (dflt : Nat) :
    PyDict.get (p :: d) k dflt = if p.1 = k then p.2 else d.get k dflt := by
  simp only [PyDict.get, List.find?]
  by_cases h : p.1 = k
  · simp [h]
  · simp [h, beq_eq_false_iff_ne.mpr h]

theorem PyDict.hasKey_cons (p : Char × Nat) (d : PyDict) (k : Char) :
    PyDict.hasKey (p :: d) k = (p.1 == k || d.hasKey k) := by
  simp [PyDict.hasKey, List.any_cons]

theorem PyDict.hasKey_iff_mem_keys (d : PyDict) (k : Char) :
    d.hasKey k = true ↔ k ∈ d.keys := by
  simp only [PyDict.hasKey, PyDict.keys, List.any_eq_true, List.mem_map]
  constructor
  · rintro ⟨p, hp, he⟩
    exact ⟨p, hp, by simpa using he⟩
  · rintro ⟨p, hp, he⟩
    exact ⟨p, hp, by simp [he]⟩

theorem PyDict.get_of_not_hasKey (d : PyDict) (k : Char) (dflt : Nat)
    (h : d.hasKey k = false) : d.get k dflt = dflt := by
  induction d with
  | nil => rfl
  | cons p rest ih =>
      rw [PyDict.hasKey_cons] at h
      simp only [Bool.or_eq_false_iff] at h
      rw [PyDict.get_cons, if_neg (by simpa using h.1), ih h.2]

theorem PyDict.get_mapUpdate (d : PyDict) (k k' : Char) (v : Nat) (dflt : Nat) :
    PyDict.get (d.map (fun p => if p.1 == k then (k, v) else p)) k' dflt =
      if k' = k then (if d.hasKey k then v else dflt) else d.get k' dflt := by
  induction d with
  | nil =>
      by_cases h : k' = k <;> simp [h, PyDict.get, PyDict.hasKey]
  | cons p rest ih =>
      rw [List.map_cons]
      by_cases hp : p.1 = k
      · rw [show (if p.1 == k then (k, v) else p) = (k, v) by simp [hp]]
        rw [PyDict.get_cons, PyDict.hasKey_cons]
        by_cases hk : k' = k
        · simp [hk, hp]
        · rw [if_neg (fun h : k = k' => hk h.symm), if_neg hk, ih, if_neg hk,
            PyDict.get_cons, if_neg (fun h : p.1 = k' => hk (h ▸ hp))]
      · rw [show (if p.1 == k then (k, v) else p) = p by simp [hp]]
        rw [PyDict.get_cons, PyDict.hasKey_cons, PyDict.get_cons]
        by_cases hpk : p.1 = k'
        · have hk : ¬ k' = k := fun h => hp (h ▸ hpk)
          simp [hpk, hk]
        · rw [if_neg hpk, if_neg hpk, ih]
          by_cases hk : k' = k <;> simp [hk, hp]

theorem PyDict.get_append_single (d : PyDict) (k k' : Char) (v : Nat)
    (dflt : Nat) (hk : d.hasKey k = false) :
    PyDict.get (d ++ [(k, v)]) k' dflt = if k' = k then v else d.get k' dflt := by
  induction d with
  | nil =>
      by_cases h : k' = k
      · simp [h, PyDict.get]
      · simp [PyDict.get, h, beq_eq_false_iff_ne.mpr (fun he : k = k' => h he.symm)]
  | cons p rest ih =>
      rw [PyDict.hasKey_cons] at hk
      simp only [Bool.or_eq_false_iff] at hk
      rw [List.cons_append, PyDict.get_cons, PyDict.get_cons]
      by_cases hpk : p.1 = k'
      · have : ¬ k' = k := by
          intro he
          exact absurd (by simp [hpk, he] : (p.1 == k) = true) (by simp [hk.1])
        simp [hpk, this]
      · rw [if_neg hpk, if_neg hpk, ih hk.2]

theorem PyDict.get_set (d : PyDict) (k k' : Char) (v : Nat) (dflt : Nat) :
    (d.set k v).get k' dflt = if k' = k then v else d.get k' dflt := by
  unfold PyDict.set
  by_cases hk : d.hasKey k
  · rw [if_pos hk, PyDict.get_mapUpdate, hk]
    by_cases h : k' = k <;> simp [h]
  · rw [if_neg hk, PyDict.get_append_single]
    exact Bool.not_eq_true _ ▸ hk

theorem PyDict.keys_mapUpdate (d : PyDict) (k : Char) (v : Nat) :
    PyDict.keys (d.map (fun p => if p.1 == k then (k, v) else p)) = d.keys := by
  unfold PyDict.keys
  induction d with
  | nil => rfl
  | cons p rest ih =>
      rw [List.map_cons, List.map_cons, List.map_cons]
      by_cases hp : p.1 = k
      · rw [show (if p.1 == k then (k, v) else p) = (k, v) by simp [hp], ih]
        show k :: _ = p.1 :: _
        rw [hp]
      · rw [show (if p.1 == k then (k, v) else p) = p by simp [hp], ih]

theorem PyDict.hasKey_set_iff (d : PyDict) (k k' : Char) (v : Nat) :
    (d.set k v).hasKey k' = true ↔ (k' = k ∨ d.hasKey k' = true) := by
  rw [PyDict.hasKey_iff_mem_keys, PyDict.hasKey_iff_mem_keys]
  unfold PyDict.set
  by_cases hk : d.hasKey k
  · rw [if_pos hk, PyDict.keys_mapUpdate]
    constructor
    · exact Or.inr
    · rintro (rfl | h)
      · exact (PyDict.hasKey_iff_mem_keys d k').mp hk
      · exact h
  · rw [if_neg hk]
    show k' ∈ PyDict.keys (d ++ [(k, v)]) ↔ _
    unfold PyDict.keys
    rw [List.map_append, List.mem_append]
    simp [or_comm]

theorem PyDict.get_merge (a b : PyDict) (k : Char) (dflt : Nat)
    (hnd : b.keys.Nodup) :
    (PyDict.merge a b).get k dflt =
      if b.hasKey k then b.get k dflt else a.get k dflt := by
  induction b generalizing a with
  | nil => simp [PyDict.merge, PyDict.hasKey]
  | cons p rest ih =>
      rw [PyDict.keys, List.map_cons, List.nodup_cons] at hnd
      have step : PyDict.merge a (p :: rest) = PyDict.merge (a.set p.1 p.2) rest := rfl
      rw [step, ih _ hnd.2, PyDict.hasKey_cons, PyDict.get_cons, PyDict.get_set]
      by_cases hrk : PyDict.hasKey rest k
      · have hne : ¬ p.1 = k := by
          intro he
          exact hnd.1 (he ▸ (PyDict.hasKey_iff_mem_keys rest k).mp hrk)
        simp [hrk, hne]
      · by_cases hpk : p.1 = k
        · simp [hrk, hpk]
        · have hkp : ¬ k = p.1 := fun h => hpk h.symm
          simp [hrk, hpk, hkp]

theorem Standalone.fillStandard_cons (lv : PyDict) (c : Char) (rest : List Char) :
    Standalone.fillStandard lv (c :: rest) =
      Standalone.fillStandard
        (if lv.hasKey c then lv else lv.set c (STANDARD_LETTER_VALUES.get c 1))
        rest := rfl

theorem Standalone.get_fillStandard (xs : List Char) (lv : PyDict) (k : Char)
    (dflt : Nat) (hk : lv.hasKey k = true) :
    (Standalone.fillStandard lv xs).get k dflt = lv.get k dflt ∧
    (Standalone.fillStandard lv xs).hasKey k = true := by
  induction xs generalizing lv with
  | nil => exact ⟨rfl, hk⟩
  | cons c rest ih =>
      rw [Standalone.fillStandard_cons]
      by_cases hc : lv.hasKey c
      · rw [if_pos hc]
        exact ih lv hk
      · rw [if_neg hc]
        have hne : ¬ k = c := fun he => hc (he ▸ hk)
        have h1 := ih (lv.set c (STANDARD_LETTER_VALUES.get c 1))
          ((PyDict.hasKey_set_iff lv c k _).mpr (Or.inr hk))
        rw [PyDict.get_set, if_neg hne] at h1
        exact h1

/-- C4 counterexample: with inline value `a5` in the query and config value
`{a: 9}`, the standalone merged table holds 9 (config wins), not the
claimed inline value 5. -/
theorem C4_counterexample :
    (Standalone.letter_values_of "a5".toList (some [('a', 9)])).get 'a' 0 = 9 ∧
    (9 : Nat) ≠ 5 := by decide

/-- C4 amended: when the config custom-value table assigns a letter, the
merged letter-value table uses the config value in BOTH variants — the
standalone `find_best_words` and the package solver methods each build the
merged dict with the custom values written last, so config takes
precedence over query-inline values everywhere. -/
theorem PyDict.hasKey_merge_left (a b : PyDict) (k : Char)
    (ha : a.hasKey k = true) : (PyDict.merge a b).hasKey k = true := by
  induction b generalizing a with
  | nil => exact ha
  | cons p rest ih =>
      exact ih (a.set p.1 p.2) ((PyDict.hasKey_set_iff a p.1 k p.2).mpr (Or.inr ha))

theorem PyDict.hasKey_merge_right (a b : PyDict) (k : Char)
    (hb : b.hasKey k = true) : (PyDict.merge a b).hasKey k = true := by
  induction b generalizing a with
  | nil => simp [PyDict.hasKey] at hb
  | cons p rest ih =>
      rw [PyDict.hasKey_cons, Bool.or_eq_true] at hb
      rcases hb with hb | hb
      · exact PyDict.hasKey_merge_left _ rest k
          ((PyDict.hasKey_set_iff a p.1 k p.2).mpr (Or.inl (beq_iff_eq.mp hb).symm))
      · exact ih (a.set p.1 p.2) hb

theorem C4_amended (s : List Char) (cv : PyDict) (k : Char) (d : Nat)
    (hnd : (PyDict.keys cv).Nodup) (hk : PyDict.hasKey cv k = true) :
    PyDict.get (Standalone.letter_values_of s (some cv)) k d = PyDict.get cv k d ∧
    PyDict.get (Pkg.letter_values_of s (some cv)) k d = PyDict.get cv k d := by
  have hcv : cv.isEmpty = false := by
    cases cv with
    | nil => simp [PyDict.hasKey] at hk
    | cons p rest => rfl
  have hmv : ∀ inl : PyDict, Pkg.mergeValues inl (some cv) = PyDict.merge inl cv := by
    intro inl
    simp [Pkg.mergeValues, hcv]
  constructor
  · show PyDict.get (Standalone.fillStandard
      (Pkg.mergeValues (parse_letter_input (Standalone.split_query s).1) (some cv))
      (Standalone.input_letters_of (Standalone.split_query s).1)) k d = _
    rw [hmv]
    rw [(Standalone.get_fillStandard _ _ k d (PyDict.hasKey_merge_right _ cv k hk)).1]
    rw [PyDict.get_merge _ _ _ _ hnd, if_pos hk]
  · show PyDict.get (Pkg.mergeValues (parse_letter_input s) (some cv)) k d = _
    rw [hmv, PyDict.get_merge _ _ _ _ hnd, if_pos hk]

/-- Witness for C4 at query "a5" and the config table mapping a to 9 and
b to 2. -/
theorem C4_amended_witness :
    (PyDict.keys [('a', 9), ('b', 2)]).Nodup ∧
    PyDict.hasKey [('a', 9), ('b', 2)] 'a' = true ∧
    (PyDict.get (Standalone.letter_values_of "a5".toList (some [('a', 9), ('b', 2)])) 'a' 0 =
      PyDict.get [('a', 9), ('b', 2)] 'a' 0 ∧
     PyDict.get (Pkg.letter_values_of "a5".toList (some [('a', 9), ('b', 2)])) 'a' 0 =
      PyDict.get [('a', 9), ('b', 2)] 'a' 0) :=
  ⟨by decide, by decide,
   C4_amended "a5".toList [('a', 9), ('b', 2)] 'a' 0 (by decide) (by decide)⟩

theorem PosDict.mem_set (acc : Standalone.PosDict) (k : Nat) (v : Char)
    (p : Nat × Char) (hp : p ∈ Standalone.PosDict.set acc k v) :
    p = (k, v) ∨ p ∈ acc := by
  unfold Standalone.PosDict.set at hp
  by_cases h : acc.any (fun q => q.1 == k)
  · rw [if_pos h] at hp
    rcases List.mem_map.mp hp with ⟨q, hq, he⟩
    by_cases hqk : q.1 = k
    · left
      rw [← he]
      simp [hqk]
    · right
      rw [← he, if_neg (by simpa using hqk)]
      exact hq
  · rw [if_neg h] at hp
    rcases List.mem_append.mp hp with h1 | h1
    · right
      exact h1
    · left
      exact List.mem_singleton.mp h1

theorem finishConstraint_pos (ch : Char) (ds : List Char)
    (acc : Standalone.PosDict) (hacc : ∀ p ∈ acc, 1 ≤ p.1) :
    ∀ p ∈ Standalone.finishConstraint ch ds acc, 1 ≤ p.1 := by
  unfold Standalone.finishConstraint
  by_cases hds : ds.isEmpty
  · rw [if_pos hds]
    exact hacc
  · rw [if_neg hds]
    by_cases hpos : 0 < digitsToNat ds
    · rw [if_pos hpos]
      intro p hp
      rcases PosDict.mem_set acc (digitsToNat ds) ch p hp with rfl | hp
      · exact hpos
      · exact hacc p hp
    · rw [if_neg hpos]
      exact hacc

theorem parseConstraintsGo_pos (s : List Char) (st : Option (Char × List Char))
    (acc : Standalone.PosDict) (hacc : ∀ p ∈ acc, 1 ≤ p.1) :
    ∀ p ∈ Standalone.parseConstraintsGo s st acc, 1 ≤ p.1 := by
  induction s generalizing st acc with
  | nil =>
      match st with
      | none => exact hacc
      | some (ch, ds) => exact finishConstraint_pos ch ds acc hacc
  | cons c rest ih =>
      match st with
      | none =>
          show ∀ p ∈ (if c.isAlpha then Standalone.parseConstraintsGo rest
            (some (c.toLower, [])) acc else Standalone.parseConstraintsGo rest none acc), 1 ≤ p.1
          by_cases hc : c.isAlpha
          · rw [if_pos hc]
            exact ih _ _ hacc
          · rw [if_neg hc]
            exact ih _ _ hacc
      | some (ch, ds) =>
          show ∀ p ∈ (if c.isDigit then Standalone.parseConstraintsGo rest (some (ch, ds ++ [c])) acc
            else if c.isAlpha then Standalone.parseConstraintsGo rest (some (c.toLower, []))
              (Standalone.finishConstraint ch ds acc)
            else Standalone.parseConstraintsGo rest none
              (Standalone.finishConstraint ch ds acc)), 1 ≤ p.1
          by_cases hd : c.isDigit
          · rw [if_pos hd]
            exact ih _ _ hacc
          · rw [if_neg hd]
            by_cases hc : c.isAlpha
            · rw [if_pos hc]
              exact ih _ _ (finishConstraint_pos ch ds acc hacc)
            · rw [if_neg hc]
              exact ih _ _ (finishConstraint_pos ch ds acc hacc)

theorem satisfies_constraints_iff (pc : Standalone.PosDict) (w : List Char) :
    Standalone.satisfies_constraints pc w = true ↔
      ∀ p ∈ pc, p.1 ≤ w.length ∧ w.getD (p.1 - 1) ' ' = p.2 := by
  simp [Standalone.satisfies_constraints, List.all_eq_true]

theorem mem_apply_constraints (pc : Standalone.PosDict) (ws : List (List Char))
    (w : List Char) :
    w ∈ Standalone.apply_constraints pc ws ↔
      w ∈ ws ∧ ∀ p ∈ pc, p.1 ≤ w.length ∧ w.getD (p.1 - 1) ' ' = p.2 := by
  unfold Standalone.apply_constraints
  cases pc with
  | nil => simp
  | cons q pc' =>
      rw [if_neg (by simp)]
      rw [List.mem_filter, satisfies_constraints_iff]

/-- C6: every parsed position constraint has a positive position (pairs
with position 0 or no digit run are dropped), and a matched word passes
the constraint-filtering step of `find_best_words` iff for every parsed
pair `(pos, ch)` the word has length at least `pos` and its character at
the 0-based index `pos - 1` is `ch`. -/
theorem C6_position_semantics (cs : List Char) (ws : List (List Char))
    (w : List Char) :
    (∀ p ∈ Standalone.parse_constraints cs, 1 ≤ p.1) ∧
    (w ∈ Standalone.apply_constraints (Standalone.parse_constraints cs) ws ↔
      w ∈ ws ∧ ∀ p ∈ Standalone.parse_constraints cs,
        p.1 ≤ w.length ∧ w.getD (p.1 - 1) ' ' = p.2) :=
  ⟨parseConstraintsGo_pos cs none [] (by intro p hp; cases hp),
   mem_apply_constraints _ ws w⟩

/-- C7: position constraints are conjunctive and monotone: a word retained
under constraint set `p :: pc` is retained under `pc` alone, so adding a
constraint never increases the matched set. -/
theorem C7_conjunctive (pc : Standalone.PosDict) (p : Nat × Char)
    (ws : List (List Char)) (w : List Char)
    (h : w ∈ Standalone.apply_constraints (p :: pc) ws) :
    w ∈ Standalone.apply_constraints pc ws := by
  rw [mem_apply_constraints] at h ⊢
  exact ⟨h.1, fun q hq => h.2 q (List.mem_cons_of_mem p hq)⟩

/-- Witness for C7: "test" passes the filter for the single constraint
`(1, t)` and hence also for the empty constraint set. -/
theorem C7_conjunctive_witness :
    "test".toList ∈ Standalone.apply_constraints [] ["test".toList] :=
  C7_conjunctive [] (1, 't') ["test".toList] "test".toList (by decide)

theorem charEq_of_toNat_eq {a b : Char} (h : a.toNat = b.toNat) : a = b := by
  have h2 := congrArg Char.ofNat h
  rwa [Char.ofNat_toNat, Char.ofNat_toNat] at h2

theorem lexLe_total (a b : List Char) : lexLe a b = true ∨ lexLe b a = true := by
  induction a generalizing b with
  | nil =>
      left
      rfl
  | cons x as ih =>
      cases b with
      | nil =>
          right
          rfl
      | cons y bs =>
          by_cases h1 : x.toNat < y.toNat
          · left
            simp [lexLe, h1]
          · by_cases h2 : y.toNat < x.toNat
            · right
              simp [lexLe, h2]
            · rcases ih bs with h | h
              · left
                simp [lexLe, h1, h2, h]
              · right
                simp [lexLe, h1, h2, h]

theorem lexLe_trans {a b c : List Char} (h1 : lexLe a b = true)
    (h2 : lexLe b c = true) : lexLe a c = true := by
  induction a generalizing b c with
  | nil => rfl
  | cons x as ih =>
      cases b with
      | nil => simp [lexLe] at h1
      | cons y bs =>
          cases c with
          | nil => simp [lexLe] at h2
          | cons z cs =>
              simp only [lexLe] at h1 h2 ⊢
              by_cases hxy : x.toNat < y.toNat
              · by_cases hyz : y.toNat < z.toNat
                · simp [show x.toNat < z.toNat by omega]
                · by_cases hzy : z.toNat < y.toNat
                  · rw [if_neg hyz, if_pos hzy] at h2
                    simp at h2
                  · simp [show x.toNat < z.toNat by omega]
              · by_cases hyx : y.toNat < x.toNat
                · rw [if_neg hxy, if_pos hyx] at h1
                  simp at h1
                · by_cases hyz : y.toNat < z.toNat
                  · simp [show x.toNat < z.toNat by omega]
                  · by_cases hzy : z.toNat < y.toNat
                    · rw [if_neg hyz, if_pos hzy] at h2
                      simp at h2
                    · rw [if_neg hxy, if_neg hyx] at h1
                      rw [if_neg hyz, if_neg hzy] at h2
                      rw [if_neg (by omega : ¬ x.toNat < z.toNat),
                        if_neg (by omega : ¬ z.toNat < x.toNat)]
                      exact ih h1 h2

theorem lexLe_antisymm {a b : List Char} (h1 : lexLe a b = true)
    (h2 : lexLe b a = true) : a = b := by
  induction a generalizing b with
  | nil =>
      cases b with
      | nil => rfl
      | cons y bs => simp [lexLe] at h2
  | cons x as ih =>
      cases b with
      | nil => simp [lexLe] at h1
      | cons y bs =>
          simp only [lexLe] at h1 h2
          by_cases hxy : x.toNat < y.toNat
          · rw [if_neg (by omega : ¬ y.toNat < x.toNat), if_pos hxy] at h2
            simp at h2
          · by_cases hyx : y.toNat < x.toNat
            · rw [if_neg hxy, if_pos hyx] at h1
              simp at h1
            · rw [if_neg hxy, if_neg hyx] at h1
              rw [if_neg hyx, if_neg hxy] at h2
              rw [charEq_of_toNat_eq (by omega : x.toNat = y.toNat), ih h1 h2]

instance : IsTotal Scored rankLe where
  total a b := by
    obtain ⟨w1, s1, l1⟩ := a
    obtain ⟨w2, s2, l2⟩ := b
    simp only [rankLe]
    rcases Nat.lt_trichotomy s1 s2 with h | h | h
    · right
      exact Or.inl h
    · rcases Nat.lt_trichotomy l1 l2 with h2 | h2 | h2
      · right
        exact Or.inr ⟨h.symm, Or.inl h2⟩
      · rcases lexLe_total w1 w2 with h3 | h3
        · left
          exact Or.inr ⟨h, Or.inr ⟨h2, h3⟩⟩
        · right
          exact Or.inr ⟨h.symm, Or.inr ⟨h2.symm, h3⟩⟩
      · left
        exact Or.inr ⟨h, Or.inl h2⟩
    · left
      exact Or.inl h

instance : IsTrans Scored rankLe where
  trans a b c hab hbc := by
    obtain ⟨w1, s1, l1⟩ := a
    obtain ⟨w2, s2, l2⟩ := b
    obtain ⟨w3, s3, l3⟩ := c
    simp only [rankLe] at hab hbc ⊢
    rcases hab with h1 | ⟨h1, h1ated⟩
    · rcases hbc with h2 | ⟨h2, _⟩
      · exact Or.inl (by omega)
      · exact Or.inl (by omega)
    · rcases hbc with h2 | ⟨h2, h2ated⟩
      · exact Or.inl (by omega)
      · rcases h1ated with h3 | ⟨h3, h3w⟩
        · rcases h2ated with h4 | ⟨h4, _⟩
          · exact Or.inr ⟨by omega, Or.inl (by omega)⟩
          · exact Or.inr ⟨by omega, Or.inl (by omega)⟩
        · rcases h2ated with h4 | ⟨h4, h4w⟩
          · exact Or.inr ⟨by omega, Or.inl (by omega)⟩
          · exact Or.inr ⟨by omega, Or.inr ⟨by omega, lexLe_trans h3w h4w⟩⟩

instance : IsAntisymm Scored rankLe where
  antisymm a b hab hba := by
    obtain ⟨w1, s1, l1⟩ := a
    obtain ⟨w2, s2, l2⟩ := b
    simp only [rankLe] at hab hba
    have hs : s1 = s2 := by
      rcases hab with h | ⟨h, _⟩ <;> rcases hba with h2 | ⟨h2, _⟩ <;> omega
    have hl : l1 = l2 := by
      rcases hab with h | ⟨h, hab2⟩
      · omega
      · rcases hba with h2 | ⟨h2, hba2⟩
        · omega
        · rcases hab2 with h3 | ⟨h3, _⟩ <;> rcases hba2 with h4 | ⟨h4, _⟩ <;> omega
    have hw : w1 = w2 := by
      rcases hab with h | ⟨h, hab2⟩
      · omega
      · rcases hba with h2 | ⟨h2, hba2⟩
        · omega
        · rcases hab2 with h3 | ⟨h3, h3w⟩
          · omega
          · rcases hba2 with h4 | ⟨h4, h4w⟩
            · omega
            · exact lexLe_antisymm h3w h4w
    rw [hs, hl, hw]

instance : IsTotal Scored pkgLe where
  total a b := by
    obtain ⟨w1, s1, l1⟩ := a
    obtain ⟨w2, s2, l2⟩ := b
    simp only [pkgLe]
    omega

instance : IsTrans Scored pkgLe where
  trans a b c hab hbc := by
    obtain ⟨w1, s1, l1⟩ := a
    obtain ⟨w2, s2, l2⟩ := b
    obtain ⟨w3, s3, l3⟩ := c
    simp only [pkgLe] at hab hbc ⊢
    omega

/-- C5 counterexample: the package sort of `find_all_words_with_scores`
breaks ties on score and length by input order only (no word tie-break):
the permuted inputs holding "abcd" and "bcda", both with score 1 and
length 4, sort to different sequences. -/
theorem C5_counterexample :
    ("abcd".toList, (1 : Nat), (4 : Nat)) ≠ ("bcda".toList, 1, 4) ∧
    List.Perm [("abcd".toList, (1 : Nat), (4 : Nat)), ("bcda".toList, 1, 4)]
      [("bcda".toList, 1, 4), ("abcd".toList, 1, 4)] ∧
    Pkg.sortScored [("abcd".toList, 1, 4), ("bcda".toList, 1, 4)] ≠
      Pkg.sortScored [("bcda".toList, 1, 4), ("abcd".toList, 1, 4)] := by decide

/-- C5 amended: the standalone sort of `find_best_words` (score
descending, then length descending, then word ascending) is a
deterministic total order — permuted inputs sort to identical sequences,
and its output is sorted by that order; the package sort of
`find_all_words_with_scores` orders by score descending then length
descending only, and (being a stable sort with no word tie-break) is not
permutation-invariant on ties. -/
theorem C5_amended (l1 l2 : List Scored) (h : List.Perm l1 l2) :
    Standalone.sortScored l1 = Standalone.sortScored l2 ∧
    List.Sorted rankLe (Standalone.sortScored l1) ∧
    List.Sorted pkgLe (Pkg.sortScored l1) := by
  refine ⟨?_, List.sorted_insertionSort rankLe l1, List.sorted_insertionSort pkgLe l1⟩
  exact List.eq_of_perm_of_sorted
    ((List.perm_insertionSort rankLe l1).trans
      (h.trans (List.perm_insertionSort rankLe l2).symm))
    (List.sorted_insertionSort rankLe l1)
    (List.sorted_insertionSort rankLe l2)

/-- Witness for C5 at the two-element permuted inputs of the
counterexample. -/
theorem C5_amended_witness :
    Standalone.sortScored [("abcd".toList, (1 : Nat), (4 : Nat)), ("bcda".toList, 1, 4)] =
      Standalone.sortScored [("bcda".toList, 1, 4), ("abcd".toList, 1, 4)] ∧
    List.Sorted rankLe (Standalone.sortScored
      [("abcd".toList, (1 : Nat), (4 : Nat)), ("bcda".toList, 1, 4)]) ∧
    List.Sorted pkgLe (Pkg.sortScored
      [("abcd".toList, (1 : Nat), (4 : Nat)), ("bcda".toList, 1, 4)]) :=
  C5_amended [("abcd".toList, 1, 4), ("bcda".toList, 1, 4)]
    [("bcda".toList, 1, 4), ("abcd".toList, 1, 4)] (by decide)

theorem findGo_cons_none {c : Char} {rest : List Char}
    (h : findGo sepSeq (c :: rest) = none) : findGo sepSeq rest = none := by
  unfold findGo at h
  by_cases hp : sepSeq.isPrefixOf (c :: rest)
  · rw [if_pos hp] at h
    exact absurd h (by simp)
  · rw [if_neg hp] at h
    exact Option.map_eq_none'.mp h

theorem findGo_append_sep (a t : List Char) (ha : findGo sepSeq a = none) :
    findGo sepSeq (a ++ sepSeq ++ t) = some a.length := by
  induction a with
  | nil =>
      show findGo sepSeq ('s' :: '=' :: t) = some 0
      unfold findGo
      rw [if_pos (by simp [sepSeq, List.isPrefixOf])]
  | cons x a' ih =>
      have ha' : findGo sepSeq a' = none := findGo_cons_none ha
      have hnp : sepSeq.isPrefixOf (x :: (a' ++ sepSeq ++ t)) = false := by
        by_cases hx : x = 's'
        · subst hx
          cases a' with
          | nil => simp [sepSeq, List.isPrefixOf]
          | cons y a'' =>
              by_cases hy : y = '='
              · subst hy
                rw [show findGo sepSeq ('s' :: '=' :: a'') = some 0 by
                  unfold findGo
                  rw [if_pos (by simp [sepSeq, List.isPrefixOf])]] at ha
                exact absurd ha (by simp)
              · simp [sepSeq, List.isPrefixOf,
                  beq_eq_false_iff_ne.mpr (fun h : '=' = y => hy h.symm)]
        · simp [sepSeq, List.isPrefixOf,
            beq_eq_false_iff_ne.mpr (fun h : 's' = x => hx h.symm)]
      show findGo sepSeq (x :: (a' ++ sepSeq ++ t)) = some (a'.length + 1)
      unfold findGo
      rw [if_neg (by rw [hnp]; simp), ih ha']
      rfl

theorem splitHead_of_append (a t : List Char) (ha : findGo sepSeq a = none) :
    splitHead sepSeq (a ++ sepSeq ++ t) = (a, t) := by
  unfold splitHead
  rw [findGo_append_sep a t ha]
  show (List.take a.length (a ++ sepSeq ++ t),
        List.drop (a.length + sepSeq.length) (a ++ sepSeq ++ t)) = (a, t)
  rw [show a.length + sepSeq.length = (a ++ sepSeq).length by
      simp [List.length_append],
    List.drop_left (a ++ sepSeq) t, List.append_assoc, List.take_left]

theorem splitHead_of_none (b : List Char) (hb : findGo sepSeq b = none) :
    splitHead sepSeq b = (b, []) := by
  unfold splitHead
  rw [hb]

theorem split_query_two_seps (a b c : List Char)
    (ha : findGo sepSeq a = none) (hb : findGo sepSeq b = none) :
    Standalone.split_query (a ++ sepSeq ++ b ++ sepSeq ++ c) =
      (pyStrip a, pyStrip b) := by
  have hshape : a ++ sepSeq ++ b ++ sepSeq ++ c = a ++ sepSeq ++ (b ++ sepSeq ++ c) := by
    simp [List.append_assoc]
  have hfind : findGo sepSeq (a ++ sepSeq ++ b ++ sepSeq ++ c) = some a.length := by
    rw [hshape]
    exact findGo_append_sep a _ ha
  have hcond : hasSub sepSeq (a ++ sepSeq ++ b ++ sepSeq ++ c) = true := by
    unfold hasSub
    rw [hfind]
    rfl
  unfold Standalone.split_query
  rw [if_pos hcond, hshape]
  simp only [splitHead_of_append a _ ha]
  simp only [splitHead_of_append b c hb]

theorem split_query_one_sep (a b : List Char)
    (ha : findGo sepSeq a = none) (hb : findGo sepSeq b = none) :
    Standalone.split_query (a ++ sepSeq ++ b) = (pyStrip a, pyStrip b) := by
  have hfind : findGo sepSeq (a ++ sepSeq ++ b) = some a.length :=
    findGo_append_sep a b ha
  have hcond : hasSub sepSeq (a ++ sepSeq ++ b) = true := by
    unfold hasSub
    rw [hfind]
    rfl
  unfold Standalone.split_query
  rw [if_pos hcond]
  simp only [splitHead_of_append a b ha]
  simp only [splitHead_of_none b hb]

/-- C10: when the raw query contains the delimiter twice, the free-letters
portion is the (stripped) text before the first occurrence of `s=`, the
constraint text is the (stripped) text strictly between the first and
second occurrences, and everything after the second occurrence is
discarded: `find_best_words` behaves exactly as if the trailing
`s=` and suffix were absent. -/
theorem C10_double_delimiter (a b c : List Char)
    (ha : hasSub sepSeq a = false) (hb : hasSub sepSeq b = false) :
    hasSub sepSeq (a ++ sepSeq ++ b ++ sepSeq ++ c) = true ∧
    Standalone.split_query (a ++ sepSeq ++ b ++ sepSeq ++ c) =
      (pyStrip a, pyStrip b) ∧
    ∀ (lexicon : List (List Char)) (cv : Option PyDict),
      Standalone.find_best_words lexicon (a ++ sepSeq ++ b ++ sepSeq ++ c) cv =
        Standalone.find_best_words lexicon (a ++ sepSeq ++ b) cv := by
  have ha' : findGo sepSeq a = none := by
    simpa [hasSub, Option.isSome_iff_ne_none] using ha
  have hb' : findGo sepSeq b = none := by
    simpa [hasSub, Option.isSome_iff_ne_none] using hb
  have hs2 : Standalone.split_query (a ++ sepSeq ++ b ++ sepSeq ++ c) =
      (pyStrip a, pyStrip b) := split_query_two_seps a b c ha' hb'
  have hs1 : Standalone.split_query (a ++ sepSeq ++ b) =
      (pyStrip a, pyStrip b) := split_query_one_sep a b ha' hb'
  refine ⟨?_, hs2, ?_⟩
  · have hfind : findGo sepSeq (a ++ sepSeq ++ b ++ sepSeq ++ c) = some a.length := by
      rw [show a ++ sepSeq ++ b ++ sepSeq ++ c = a ++ sepSeq ++ (b ++ sepSeq ++ c) by
        simp [List.append_assoc]]
      exact findGo_append_sep a _ ha'
    unfold hasSub
    rw [hfind]
    rfl
  · intro lexicon cv
    unfold Standalone.find_best_words Standalone.valid_words_of
      Standalone.letter_values_of
    rw [hs1, hs2]

/-- Witness for C10 at the query "ab" ++ "s=" ++ "c1" ++ "s=" ++ "zz". -/
theorem C10_double_delimiter_witness :
    hasSub sepSeq ("ab".toList ++ sepSeq ++ "c1".toList ++ sepSeq ++ "zz".toList) = true ∧
    Standalone.split_query ("ab".toList ++ sepSeq ++ "c1".toList ++ sepSeq ++ "zz".toList) =
      (pyStrip "ab".toList, pyStrip "c1".toList) ∧
    ∀ (lexicon : List (List Char)) (cv : Option PyDict),
      Standalone.find_best_words lexicon
          ("ab".toList ++ sepSeq ++ "c1".toList ++ sepSeq ++ "zz".toList) cv =
        Standalone.find_best_words lexicon ("ab".toList ++ sepSeq ++ "c1".toList) cv :=
  C10_double_delimiter "ab".toList "c1".toList "zz".toList (by decide) (by decide)

theorem findGo_none_of_no_alpha (letters : List Char)
    (h : ∀ c ∈ letters, c.isAlpha = false) : findGo sepSeq letters = none := by
  induction letters with
  | nil => rfl
  | cons c rest ih =>
      have hp : sepSeq.isPrefixOf (c :: rest) = false := by
        by_cases hcs : c = 's'
        · exact absurd (hcs ▸ h c (List.mem_cons_self c rest)) (by decide)
        · simp [sepSeq, List.isPrefixOf,
            beq_eq_false_iff_ne.mpr (fun he : 's' = c => hcs he.symm)]
      unfold findGo
      rw [if_neg (by rw [hp]; simp), ih (fun d hd => h d (List.mem_cons_of_mem c hd))]
      rfl

theorem split_query_of_no_sep (s : List Char) (h : hasSub sepSeq s = false) :
    Standalone.split_query s = (s, []) := by
  unfold Standalone.split_query
  rw [if_neg (by rw [h]; simp)]

theorem get_words_empty_standalone (lexicon : List (List Char)) :
    Standalone.get_words_with_letters lexicon [] = [] := by
  unfold Standalone.get_words_with_letters
  apply List.filter_eq_nil_iff.mpr
  intro w _
  cases w with
  | nil => simp
  | cons c cs =>
      have hcf : canForm (c :: cs) (pyLower []) = false := by
        apply Bool.eq_false_iff.mpr
        intro hcontra
        have h2 := (canForm_iff _ _).mp hcontra c (List.mem_cons_self c cs)
        simp [pyLower, List.count_cons_self] at h2
      simp [hcf]

theorem get_words_empty_pkg (lexicon : List (List Char))
    (hlex : ∀ w ∈ lexicon, w ≠ []) :
    Pkg.get_words_with_letters lexicon [] = [] := by
  unfold Pkg.get_words_with_letters
  apply List.filter_eq_nil_iff.mpr
  intro w hw
  cases hwe : w with
  | nil => exact absurd hwe (hlex w hw)
  | cons c cs =>
      subst hwe
      intro hcontra
      have h2 := (canForm_iff _ _).mp hcontra c (List.mem_cons_self c cs)
      simp [pyLower, List.count_cons_self] at h2

theorem parseGo_no_alpha (s : List Char) (acc : PyDict)
    (h : ∀ c ∈ s, c.isAlpha = false) : parseGo s none acc = acc := by
  induction s generalizing acc with
  | nil => rfl
  | cons c rest ih =>
      show (if c.isAlpha then parseGo rest (some (c.toLower, [])) acc
        else parseGo rest none acc) = acc
      rw [if_neg (by rw [h c (List.mem_cons_self c rest)]; simp)]
      exact ih acc (fun d hd => h d (List.mem_cons_of_mem c hd))

/-- C9: EVERY input whose candidate set is empty — whether no lexicon word
fits the bag or all matches are excluded by position constraints — yields
an empty result and no error, for arbitrary letters strings and custom
values in both variants: the standalone `find_best_words` returns the
result with both views empty, and the package `find_all_words_with_scores`
returns the empty list (first two conjuncts).  The claim's example inputs
are covered by the last two conjuncts: an empty or all-non-alphabetic
letters string empties the standalone candidate set unconditionally, and
empties the package candidate set when no custom values are supplied and
the lexicon has no empty word (with custom values present the package
availability comes from the config keys instead, so its candidate set
need not be empty there — the first conjuncts still apply whenever it
is). -/
theorem C9_empty_candidates (lexicon : List (List Char)) (letters : List Char)
    (cv : Option PyDict) :
    (Standalone.valid_words_of lexicon letters = [] →
      Standalone.find_best_words lexicon letters cv = ⟨[], []⟩) ∧
    (Pkg.get_words_with_letters lexicon
        (PyDict.keys (Pkg.letter_values_of letters cv)) = [] →
      Pkg.find_all_words_with_scores lexicon letters cv = []) ∧
    ((∀ c ∈ letters, c.isAlpha = false) →
      Standalone.valid_words_of lexicon letters = []) ∧
    ((∀ c ∈ letters, c.isAlpha = false) → (∀ w ∈ lexicon, w ≠ []) →
      Pkg.get_words_with_letters lexicon
        (PyDict.keys (Pkg.letter_values_of letters none)) = []) := by
  refine ⟨?_, ?_, ?_, ?_⟩
  · intro hvw
    unfold Standalone.find_best_words
    rw [hvw]
    rfl
  · intro hgw
    unfold Pkg.find_all_words_with_scores
    simp only [hgw]
    rfl
  · intro hletters
    have hsplit : Standalone.split_query letters = (letters, []) :=
      split_query_of_no_sep letters
        (by unfold hasSub; rw [findGo_none_of_no_alpha letters hletters]; rfl)
    have hinp : Standalone.input_letters_of letters = [] := by
      unfold Standalone.input_letters_of
      rw [List.filter_eq_nil_iff.mpr (by intro c hc; simp [hletters c hc])]
      rfl
    unfold Standalone.valid_words_of
    rw [hsplit]
    show Standalone.apply_constraints (Standalone.parse_constraints [])
      (Standalone.get_words_with_letters lexicon (Standalone.input_letters_of letters)) = []
    rw [hinp]
    show Standalone.get_words_with_letters lexicon [] = []
    exact get_words_empty_standalone lexicon
  · intro hletters hlex
    have hparse : parse_letter_input letters = [] :=
      parseGo_no_alpha letters [] hletters
    have hlv : Pkg.letter_values_of letters none = [] := by
      unfold Pkg.letter_values_of Pkg.mergeValues
      rw [hparse]
    rw [hlv]
    exact get_words_empty_pkg lexicon hlex

/-- Witness for C9 at the one-word lexicon containing "cats" and the
all-non-alphabetic input "12 !" with no custom values: the example
conjuncts supply the empty candidate sets, and the general conjuncts turn
them into empty results. -/
theorem C9_empty_candidates_witness :
    Standalone.find_best_words ["cats".toList] "12 !".toList none = ⟨[], []⟩ ∧
    Pkg.find_all_words_with_scores ["cats".toList] "12 !".toList none = [] := by
  have h := C9_empty_candidates ["cats".toList] "12 !".toList none
  exact ⟨h.1 (h.2.2.1 (by decide)), h.2.1 (h.2.2.2 (by decide) (by decide))⟩

/-- C2 counterexample: the claim asserts that both
`get_words_with_letters` implementations return a lexicon word iff the
multiset condition holds and the word has length at least 4; but the
package implementation returns the 3-letter word "cat" from the letters
"cat". -/
theorem C2_counterexample :
    "cat".toList ∈ Pkg.get_words_with_letters ["cat".toList] "cat".toList ∧
    ¬ (4 ≤ "cat".toList.length) := by decide

/-- C2 amended: a lexicon word `w` is returned by the standalone
`Dictionary.get_words_with_letters s` iff the count of every letter of `w`
is at most its count in the lowercased `s` and `len w >= 4`; the package
implementation satisfies the same condition without any minimum-length
requirement. -/
theorem C2_amended (words : List (List Char)) (s : List Char) (w : List Char) :
    (w ∈ Standalone.get_words_with_letters words s ↔
      w ∈ words ∧ 4 ≤ w.length ∧ ∀ c ∈ w, w.count c ≤ (pyLower s).count c) ∧
    (w ∈ Pkg.get_words_with_letters words s ↔
      w ∈ words ∧ ∀ c ∈ w, w.count c ≤ (pyLower s).count c) :=
  ⟨mem_get_words_standalone words s w, mem_get_words_pkg words s w⟩

theorem toNat_ofNat_valid (m : Nat) (h : m.isValidChar) :
    (Char.ofNat m).toNat = m := by
  unfold Char.ofNat
  rw [dif_pos h]
  rfl

theorem toLower_toLower (c : Char) : c.toLower.toLower = c.toLower := by
  by_cases h : c.toNat ≥ 65 ∧ c.toNat ≤ 90
  · have h1 : c.toLower = Char.ofNat (c.toNat + 32) := by
      simp only [Char.toLower]
      rw [if_pos h]
    have h2 : (Char.ofNat (c.toNat + 32)).toNat = c.toNat + 32 :=
      toNat_ofNat_valid _ (Or.inl (by omega))
    rw [h1]
    simp only [Char.toLower]
    rw [h2, if_neg (by omega)]
  · have h1 : c.toLower = c := by
      simp only [Char.toLower]
      rw [if_neg h]
    rw [h1]
    exact h1

theorem pyLower_idem (s : List Char) : pyLower (pyLower s) = pyLower s := by
  induction s with
  | nil => rfl
  | cons c cs ih =>
      show Char.toLower (Char.toLower c) :: pyLower (pyLower cs) =
        Char.toLower c :: pyLower cs
      rw [toLower_toLower, ih]

theorem PyDict.keys_nodup_set (d : PyDict) (k : Char) (v : Nat)
    (h : (PyDict.keys d).Nodup) : (PyDict.keys (d.set k v)).Nodup := by
  unfold PyDict.set
  by_cases hk : d.hasKey k
  · rw [if_pos hk, PyDict.keys_mapUpdate]
    exact h
  · rw [if_neg hk]
    unfold PyDict.keys
    rw [List.map_append]
    refine List.Nodup.append h (by simp) ?_
    intro a ha hb
    have hak : a = k := by simpa using hb
    subst hak
    exact absurd ((PyDict.hasKey_iff_mem_keys d a).mpr ha) (by simp [hk])

theorem finishEntry_keys_nodup (ch : Char) (ds : List Char) (acc : PyDict)
    (h : (PyDict.keys acc).Nodup) :
    (PyDict.keys (finishEntry ch ds acc)).Nodup :=
  PyDict.keys_nodup_set acc ch _ h

theorem parseGo_keys_nodup (s : List Char) (st : Option (Char × List Char))
    (acc : PyDict) (h : (PyDict.keys acc).Nodup) :
    (PyDict.keys (parseGo s st acc)).Nodup := by
  induction s generalizing st acc with
  | nil =>
      match st with
      | none => exact h
      | some (ch, ds) => exact finishEntry_keys_nodup ch ds acc h
  | cons c rest ih =>
      match st with
      | none =>
          show (PyDict.keys (if c.isAlpha then parseGo rest (some (c.toLower, [])) acc
            else parseGo rest none acc)).Nodup
          by_cases hc : c.isAlpha
          · rw [if_pos hc]
            exact ih _ _ h
          · rw [if_neg hc]
            exact ih _ _ h
      | some (ch, ds) =>
          show (PyDict.keys (if c.isDigit then parseGo rest (some (ch, ds ++ [c])) acc
            else if c.isAlpha then parseGo rest (some (c.toLower, [])) (finishEntry ch ds acc)
            else parseGo rest none (finishEntry ch ds acc))).Nodup
          by_cases hd : c.isDigit
          · rw [if_pos hd]
            exact ih _ _ h
          · rw [if_neg hd]
            by_cases hc : c.isAlpha
            · rw [if_pos hc]
              exact ih _ _ (finishEntry_keys_nodup ch ds acc h)
            · rw [if_neg hc]
              exact ih _ _ (finishEntry_keys_nodup ch ds acc h)

theorem PyDict.keys_nodup_merge (a b : PyDict) (h : (PyDict.keys a).Nodup) :
    (PyDict.keys (PyDict.merge a b)).Nodup := by
  induction b generalizing a with
  | nil => exact h
  | cons p rest ih => exact ih _ (PyDict.keys_nodup_set a p.1 p.2 h)

theorem mergeValues_keys_nodup (inl : PyDict) (cv : Option PyDict)
    (h : (PyDict.keys inl).Nodup) :
    (PyDict.keys (Pkg.mergeValues inl cv)).Nodup := by
  match cv with
  | none => exact h
  | some c =>
      show (PyDict.keys (if c.isEmpty then inl else PyDict.merge inl c)).Nodup
      by_cases hc : c.isEmpty
      · rw [if_pos hc]
        exact h
      · rw [if_neg hc]
        exact PyDict.keys_nodup_merge inl c h

/-- C3 counterexample: from the input "letters" the letters e and t are
each literally available twice, "tees" is four letters long and fits that
literal multiset, yet the package `find_all_words_with_scores` on the
lexicon containing only "tees" returns nothing: its availability comes
from the deduplicated key set of the parsed table (each letter once), not
from the raw letters with repetition. -/
theorem C3_counterexample :
    (∀ c ∈ "tees".toList, "tees".toList.count c ≤
      (("letters".toList.filter Char.isAlpha).map Char.toLower).count c) ∧
    4 ≤ "tees".toList.length ∧
    Pkg.find_all_words_with_scores ["tees".toList] "letters".toList none = [] := by
  decide

/-- C3 amended: the standalone `find_best_words` matches against the
literal multiset of the letters portion (every alphabetic character,
lowercased, counted with repetition); the package `find_best_word` and
`find_all_words_with_scores` instead pass the keys of the merged value
table to the matcher, so every distinct letter is available at most
once. -/
theorem C3_amended (letters : List Char) (cv : Option PyDict)
    (lexicon : List (List Char)) (w : List Char) :
    (w ∈ Standalone.get_words_with_letters lexicon
        (Standalone.input_letters_of letters) ↔
      w ∈ lexicon ∧ 4 ≤ w.length ∧
        ∀ c ∈ w, w.count c ≤ ((letters.filter Char.isAlpha).map Char.toLower).count c) ∧
    ∀ c : Char, (PyDict.keys (Pkg.letter_values_of letters cv)).count c ≤ 1 := by
  constructor
  · rw [mem_get_words_standalone]
    have heq : pyLower (Standalone.input_letters_of letters) =
        (letters.filter Char.isAlpha).map Char.toLower := by
      show pyLower (pyLower (letters.filter Char.isAlpha)) = _
      rw [pyLower_idem]
      rfl
    rw [heq]
  · intro c
    have hnd : (PyDict.keys (Pkg.letter_values_of letters cv)).Nodup := by
      unfold Pkg.letter_values_of
      exact mergeValues_keys_nodup _ cv
        (parseGo_keys_nodup letters none [] List.nodup_nil)
    exact List.nodup_iff_count_le_one.mp hnd c
